import Mathlib

/-!
Shallow embedding of `src/solution.py`: a transportation service's itinerary
and bookings, with historical aggregation (`history`) and price-rationed
demand forecasting (`forecast`).

Modelling conventions:
* Python object identity of `Station` instances is modelled by giving every
  station a distinct natural-number identifier (`Station := Nat`); the
  scenarios of the claims only ever compare distinct station objects.
* Python `dict`s (which preserve insertion order and are iterated in that
  order) are modelled as association lists `List (key × value)`;
  `dict[k] = v` is `dictInsert`, `dict[k]` is `dictLookup`.
* Python numbers: `int` is `Int`; `Passenger.price` / money amounts
  (`float` in the source, used with exact decimal values) are `ℚ`.
* The `KeyError` a missing dictionary key raises is modelled with `Option`
  (`none` = the exception propagates).
-/

abbrev Station := Nat

structure Passenger where
  origin : Station
  destination : Station
  sale_day_x : Int
  price : ℚ
deriving DecidableEq

structure Leg where
  origin : Station
  destination : Station
deriving DecidableEq

structure OD where
  origin : Station
  destination : Station
  passengers : List Passenger
deriving DecidableEq

structure Service where
  legs : List Leg
  ods : List ((Station × Station) × OD)
deriving DecidableEq

/-- Fresh service, before any itinerary is loaded. -/
def Service.empty : Service := ⟨[], []⟩

/-- Python `m[k]`, as an association-list lookup (`none` models `KeyError`). -/
def dictLookup {α : Type} (m : List ((Station × Station) × α)) (k : Station × Station) :
    Option α :=
  match m with
  | [] => none
  | kv :: rest => if kv.1 = k then some kv.2 else dictLookup rest k

/-- Python `m[k] = v` on an insertion-ordered dict: replace the value in place
when the key is present, append otherwise. -/
def dictInsert {α : Type} (m : List ((Station × Station) × α)) (k : Station × Station)
    (v : α) : List ((Station × Station) × α) :=
  match m with
  | [] => [(k, v)]
  | kv :: rest => if kv.1 = k then (k, v) :: rest else kv :: dictInsert rest k v

/-- Lookup in an `int → int` dict (`pricing`, one day's `demand`). -/
def ilookup (m : List (Int × Int)) (k : Int) : Option Int :=
  match m with
  | [] => none
  | kv :: rest => if kv.1 = k then some kv.2 else ilookup rest k

/-- Second loop of `OD._legs`: keep yielding legs until one's origin is the
OD's destination (that leg excluded). -/
def legsUntil (dst : Station) : List Leg → List Leg
  | [] => []
  | l :: rest => if l.origin = dst then [] else l :: legsUntil dst rest

/-- Both loops of `OD._legs`: scan for the first leg whose origin is the OD's
origin, yield it, then yield until a leg's origin is the OD's destination. -/
def legsScan (o dst : Station) : List Leg → List Leg
  | [] => []
  | l :: rest => if l.origin = o then l :: legsUntil dst rest else legsScan o dst rest

/-- `OD.legs` (the `legs` property): derived from the owning service's
ordered legs on each access. -/
def OD.legs (od : OD) (serviceLegs : List Leg) : List Leg :=
  legsScan od.origin od.destination serviceLegs

/-- `Leg.passengers` (the `passengers` property): for each OD of the owning
service, in order, append its passengers when this leg is in `od.legs`. -/
def Leg.passengers (leg : Leg) (s : Service) : List Passenger :=
  s.ods.foldl
    (fun acc kv => if leg ∈ kv.2.legs s.legs then acc ++ kv.2.passengers else acc) []

/-- Sort order used by `OD._history`'s `sorted(..., key=lambda p: p.sale_day_x)`. -/
def byDay (a b : Passenger) : Prop := a.sale_day_x ≤ b.sale_day_x

instance : DecidableRel byDay := fun a b => Int.decLe a.sale_day_x b.sale_day_x

instance : IsTotal Passenger byDay := ⟨fun a b => Int.le_total a.sale_day_x b.sale_day_x⟩

instance : IsTrans Passenger byDay := ⟨fun _ _ _ h h' => le_trans h h'⟩

/-- `itertools.groupby` loop of `OD._history` on the day-sorted passenger
list: each consecutive run of one `sale_day_x` adds its head count and prices
to the running totals, then emits one triplet. -/
def historyFrom : List Passenger → Int → ℚ → List (Int × Int × ℚ)
  | [], _, _ => []
  | p :: rest, head_count, wallet =>
    let day := p.sale_day_x
    let grp := p :: rest.takeWhile (fun q => decide (q.sale_day_x = day))
    let rest' := rest.dropWhile (fun q => decide (q.sale_day_x = day))
    let head_count' := head_count + grp.length
    let wallet' := wallet + (grp.map Passenger.price).sum
    (day, head_count', wallet') :: historyFrom rest' head_count' wallet'
termination_by l _ _ => l.length
decreasing_by
  have := (List.dropWhile_sublist (l := rest)
    (fun q => decide (q.sale_day_x = p.sale_day_x))).length_le
  simp only [List.length_cons]
  omega

/-- `OD.history()`: triplets `(day_x, cumulative bookings, cumulative revenue)`. -/
def OD.history (od : OD) : List (Int × Int × ℚ) :=
  historyFrom (List.insertionSort byDay od.passengers) 0 0

/-- Inner loop of `OD.forecast` for one day: scan the pricing levels in
order, threading `sold` and `money`; a level sells
`_sold = min(demand[price] - sold, count)` seats when that is positive and
its remaining inventory drops accordingly; `none` models the `KeyError` of a
price missing from the day's demand. -/
def runDay (demand : List (Int × Int)) :
    List (Int × Int) → Int → ℚ → Option (List (Int × Int) × Int × ℚ)
  | [], sold, money => some ([], sold, money)
  | (price, count) :: rest, sold, money =>
    match ilookup demand price with
    | none => none
    | some dem =>
      let fill := min (dem - sold) count
      if fill ≤ 0 then
        match runDay demand rest sold money with
        | none => none
        | some (rest', sold', money') => some ((price, count) :: rest', sold', money')
      else
        match runDay demand rest (sold + fill) (money + (price : ℚ) * (fill : ℚ)) with
        | none => none
        | some (rest', sold', money') =>
          some ((price, count - fill) :: rest', sold', money')

/-- Day loop of `OD.forecast`: one emitted triplet per `demand_matrix` entry,
with the depleted pricing threaded through the whole horizon; also returns
the final state of `pricing` (the source mutates the caller's dict). -/
def forecastAux :
    List (Int × Int) → Int → ℚ → List (Int × List (Int × Int)) →
    Option (List (Int × Int × ℚ) × List (Int × Int))
  | pricing, _, _, [] => some ([], pricing)
  | pricing, head_count, money, (day, demand) :: rest =>
    match runDay demand pricing 0 money with
    | none => none
    | some (pricing', sold, money') =>
      match forecastAux pricing' (head_count + sold) money' rest with
      | none => none
      | some (out, pfin) => some ((day, head_count + sold, money') :: out, pfin)

/-- `OD.forecast(pricing, demand_matrix)`: `money` and `head_count` are
seeded from the OD's current passengers, then each day is processed by
`runDay`. -/
def OD.forecast (od : OD) (pricing : List (Int × Int))
    (demand_matrix : List (Int × List (Int × Int))) :
    Option (List (Int × Int × ℚ) × List (Int × Int)) :=
  forecastAux pricing (od.passengers.length : Int)
    ((od.passengers.map Passenger.price).sum) demand_matrix

/-- Loop body of `Service.load_itinerary`: `seen` is the already-enumerated
part of the itinerary (Python's `islice(itinerary, i)`); the first station is
skipped, every later station `st` adds one OD per earlier station and then
one leg from the immediately preceding station. -/
def loadGo (s : Service) (seen : List Station) : List Station → Service
  | [] => s
  | st :: rest =>
    match seen with
    | [] => loadGo s [st] rest
    | _ :: _ =>
      let withOds : Service :=
        { s with
          ods := seen.foldl (fun m prev => dictInsert m (prev, st) ⟨prev, st, []⟩) s.ods }
      let withLeg : Service :=
        { withOds with legs := withOds.legs ++ [⟨seen.getLastD st, st⟩] }
      loadGo withLeg (seen ++ [st]) rest

/-- `Service.load_itinerary(itinerary)`: populates `legs` and `ods`. -/
def Service.load_itinerary (s : Service) (itinerary : List Station) : Service :=
  loadGo s [] itinerary

/-- Appending one passenger to the OD stored under its exact
`(origin, destination)` key. -/
def appendPassenger (s : Service) (p : Passenger) : Service :=
  { s with
    ods := s.ods.map fun kv =>
      if kv.1 = (p.origin, p.destination) then
        (kv.1, { kv.2 with passengers := kv.2.passengers ++ [p] })
      else kv }

/-- `Service.load_passenger_manifest(passengers)`: route each passenger to
the OD matching its pair; on a missing key the `KeyError` propagates, and the
returned pair is (service as mutated so far, the passenger that failed). -/
def Service.load_passenger_manifest (s : Service) :
    List Passenger → Service × Option Passenger
  | [] => (s, none)
  | p :: rest =>
    match dictLookup s.ods (p.origin, p.destination) with
    | none => (s, some p)
    | some _ => Service.load_passenger_manifest (appendPassenger s p) rest

/-! ## Definitions written from the spec's words (for refinement claims) -/

/-- Spec §4.2, stated from its words: drop legs until the first whose origin
is the OD's origin; that leg starts the span, which then extends up to — but
excluding — the first subsequent leg whose origin is the OD's destination. -/
def legsSpec (serviceLegs : List Leg) (o dst : Station) : List Leg :=
  match serviceLegs.dropWhile (fun l => decide (l.origin ≠ o)) with
  | [] => []
  | h :: t => h :: t.takeWhile (fun l => decide (l.origin ≠ dst))

/-- Spec §4.4, stated from its words: one triplet per distinct sale day in
ascending order, carrying the cumulative count of passengers sold at or
before that day and the cumulative sum of their prices. -/
def historySpec (od : OD) : List (Int × Int × ℚ) :=
  (((List.insertionSort byDay od.passengers).map Passenger.sale_day_x).dedup).map
    fun d =>
      (d, ((od.passengers.filter fun p => decide (p.sale_day_x ≤ d)).length : Int),
        ((od.passengers.filter fun p => decide (p.sale_day_x ≤ d)).map Passenger.price).sum)

/-- Python `m[k] = v` for an `int → int` dict whose key is already present:
replace the value under that key. -/
def iupdate (m : List (Int × Int)) (k v : Int) : List (Int × Int) :=
  m.map fun kv => if kv.1 = k then (k, v) else kv

/-- Spec §4.5 step 2, stated from its words, for one price level `p`:
`want = demand[p] - sold`, `fill = min(want, count)`; skip when `fill ≤ 0`,
otherwise decrement `pricing[p]` by `fill`, add `fill` to `sold` and
`p * fill` to `money`. -/
def specPrice (demand : List (Int × Int)) (st : List (Int × Int) × Int × ℚ) (p : Int) :
    List (Int × Int) × Int × ℚ :=
  let count := (ilookup st.1 p).getD 0
  let want := (ilookup demand p).getD 0 - st.2.1
  let fill := min want count
  if fill ≤ 0 then st
  else (iupdate st.1 p (count - fill), st.2.1 + fill, st.2.2 + (p : ℚ) * (fill : ℚ))

/-- Spec §4.5 steps 1-2: initialize `sold = 0`, then scan every price level
of `pricing` in `pricing`'s key order. -/
def specDay (demand pricing : List (Int × Int)) (money : ℚ) :
    List (Int × Int) × Int × ℚ :=
  (pricing.map Prod.fst).foldl (specPrice demand) (pricing, 0, money)

/-- Spec §4.5 steps 1-4 over the whole demand matrix: process each day,
add `sold` to `head_count` and emit `(day, head_count, money)`. -/
def forecastSpecAux :
    List (Int × Int) → Int → ℚ → List (Int × List (Int × Int)) →
    List (Int × Int × ℚ) × List (Int × Int)
  | pricing, _, _, [] => ([], pricing)
  | pricing, head_count, money, (day, demand) :: rest =>
    let st := specDay demand pricing money
    let next := forecastSpecAux st.1 (head_count + st.2.1) st.2.2 rest
    ((day, head_count + st.2.1, st.2.2) :: next.1, next.2)

/-- Spec §4.5 with its initialization: `money` is the price sum and
`head_count` the count of the OD's current passengers. -/
def forecastSpecOf (od : OD) (pricing : List (Int × Int))
    (demand_matrix : List (Int × List (Int × Int))) :
    List (Int × Int × ℚ) × List (Int × Int) :=
  forecastSpecAux pricing (od.passengers.length : Int)
    ((od.passengers.map Passenger.price).sum) demand_matrix

/-! ## Derived observations used by the claims -/

/-- Total remaining inventory of a pricing dict. -/
def sumVals (m : List (Int × Int)) : Int := (m.map Prod.snd).sum

/-- Per-day seats sold, read off a forecast output: successive differences
of the cumulative `count` column, starting from the pre-forecast count. -/
def increments (base : Int) : List (Int × Int × ℚ) → List Int
  | [] => []
  | t :: rest => (t.2.1 - base) :: increments t.2.1 rest

/-- Pointwise inventory comparison: same price keys in the same order, each
remaining seat count in the first at most the one in the second. -/
def PLe (q p : List (Int × Int)) : Prop :=
  List.Forall₂ (fun a b => a.1 = b.1 ∧ a.2 ≤ b.2) q p

/-- Consecutive-pair legs of an itinerary (what §4.1 calls "one per
consecutive pair"). -/
def consecPairs : List Station → List Leg
  | a :: b :: rest => ⟨a, b⟩ :: consecPairs (b :: rest)
  | _ => []

/-- OD keys `load_itinerary` creates, in creation order: for each station
`st` after the first, one key `(prev, st)` per station `prev` before it. -/
def pairKeys : List Station → List Station → List (Station × Station)
  | _, [] => []
  | seen, st :: rest => (seen.map fun prev => (prev, st)) ++ pairKeys (seen ++ [st]) rest

/-! ## The worked scenario of the source (three stations, four bookings) -/

/-- Stations 0 = Paris Gare de Lyon, 1 = Lyon Part-Dieu,
2 = Marseille Saint-Charles. -/
def itinC2 : List Station := [0, 1, 2]

/-- Passenger manifest of the worked scenario. -/
def manifestC2 : List Passenger :=
  [⟨0, 1, -30, 20⟩, ⟨0, 1, -25, 30⟩, ⟨0, 1, -20, 40⟩, ⟨0, 1, -20, 40⟩, ⟨0, 2, -10, 50⟩]

/-- Service of the worked scenario, after itinerary and manifest loading. -/
def svcC2 : Service :=
  ((Service.empty.load_itinerary itinC2).load_passenger_manifest manifestC2).1

/-- The Paris → Lyon OD of the worked scenario. -/
def odC2 : OD := (dictLookup svcC2.ods (0, 1)).getD ⟨0, 1, []⟩

/-- Price-level inventory of the worked scenario. -/
def pricingC2 : List (Int × Int) := [(10, 0), (20, 2), (30, 5), (40, 5), (50, 5)]

/-- Demand matrix of the worked scenario (day_x −7..0). -/
def dmC2 : List (Int × List (Int × Int)) :=
  [(-7, [(10, 5), (20, 1), (30, 0), (40, 0), (50, 0)]),
   (-6, [(10, 5), (20, 2), (30, 1), (40, 1), (50, 1)]),
   (-5, [(10, 5), (20, 4), (30, 3), (40, 2), (50, 1)]),
   (-4, [(10, 5), (20, 5), (30, 4), (40, 3), (50, 1)]),
   (-3, [(10, 5), (20, 5), (30, 5), (40, 3), (50, 2)]),
   (-2, [(10, 5), (20, 5), (30, 5), (40, 4), (50, 3)]),
   (-1, [(10, 5), (20, 5), (30, 5), (40, 5), (50, 4)]),
   (0, [(10, 5), (20, 5), (30, 5), (40, 5), (50, 5)])]

/-- Legs of the four-station itinerary A-B-C-D (A=0, B=1, C=2, D=3) used by
the spec's `OD.legs` examples. -/
def legsABCD : List Leg := [⟨0, 1⟩, ⟨1, 2⟩, ⟨2, 3⟩]

/-- Legs `loadGo` appends, as a function of the already-seen stations and the
remaining itinerary. -/
def legsOf : List Station → List Station → List Leg
  | _, [] => []
  | [], st :: rest => legsOf [st] rest
  | a :: seen₀, st :: rest =>
    ⟨(a :: seen₀).getLastD st, st⟩ :: legsOf ((a :: seen₀) ++ [st]) rest

/-- Witness data for the forecast claims: a fresh OD, a two-level pricing and
a two-day demand matrix. -/
def dmW : List (Int × List (Int × Int)) :=
  [(-1, [(10, 2), (20, 2)]), (0, [(10, 1), (20, 3)])]


/-! ## Lemmas about the leg-span derivation -/

theorem legsUntil_eq_takeWhile (dst : Station) (l : List Leg) :
    legsUntil dst l = l.takeWhile fun x => decide (x.origin ≠ dst) := by
  induction l with
  | nil => rfl
  | cons a t ih =>
    by_cases h : a.origin = dst
    · simp [legsUntil, h, List.takeWhile_cons]
    · simp [legsUntil, h, List.takeWhile_cons, ih]

theorem legsSpec_cons_of_ne {a : Leg} {o : Station} (dst : Station) (t : List Leg)
    (h : ¬ a.origin = o) : legsSpec (a :: t) o dst = legsSpec t o dst := by
  simp [legsSpec, List.dropWhile_cons, h]

theorem legsScan_eq_spec (o dst : Station) (l : List Leg) :
    legsScan o dst l = legsSpec l o dst := by
  induction l with
  | nil => rfl
  | cons a t ih =>
    by_cases h : a.origin = o
    · simp [legsScan, legsSpec, List.dropWhile_cons, h, legsUntil_eq_takeWhile]
    · rw [legsScan, if_neg h, ih, legsSpec_cons_of_ne dst t h]

theorem legsScan_eq_nil {o : Station} (dst : Station) {l : List Leg}
    (h : ∀ x ∈ l, x.origin ≠ o) : legsScan o dst l = [] := by
  induction l with
  | nil => rfl
  | cons a t ih =>
    rw [legsScan, if_neg (h a (List.mem_cons_self a t))]
    exact ih fun x hx => h x (List.mem_cons_of_mem a hx)

theorem legsScan_contiguous (o dst : Station) (l : List Leg) :
    ∃ l₁ l₂, l = l₁ ++ legsScan o dst l ++ l₂ := by
  induction l with
  | nil => exact ⟨[], [], rfl⟩
  | cons a t ih =>
    by_cases h : a.origin = o
    · refine ⟨[], t.dropWhile fun x => decide (x.origin ≠ dst), ?_⟩
      simp [legsScan, h, legsUntil_eq_takeWhile, List.takeWhile_append_dropWhile]
    · obtain ⟨l₁, l₂, ht⟩ := ih
      refine ⟨a :: l₁, l₂, ?_⟩
      simp only [legsScan, if_neg h, List.cons_append, List.append_assoc] at ht ⊢
      exact congrArg _ ht

/-! C6 helper -/

theorem foldl_filter_flatMap {α β : Type} (P : α → Prop) [DecidablePred P] (f : α → List β) :
    ∀ (L : List α) (acc : List β),
      L.foldl (fun acc x => if P x then acc ++ f x else acc) acc
        = acc ++ (L.filter fun x => decide (P x)).flatMap f := by
  intro L
  induction L with
  | nil => intro acc; simp
  | cons a t ih =>
    intro acc
    by_cases h : P a
    · simp [List.foldl_cons, h, ih, List.filter_cons, List.flatMap_cons, List.append_assoc]
    · simp [List.foldl_cons, h, ih, List.filter_cons]

/-- Claim C4: `OD.legs` is the contiguous sub-sequence of the service's
ordered legs that starts at the first leg whose origin equals the OD's
origin and ends just before the first subsequent leg whose origin equals the
OD's destination (running to the end when none does); for itinerary A-B-C-D
this gives OD(A,C).legs = [A-B, B-C] and OD(B,D).legs = [B-C, C-D]; and when
the OD's origin never appears as a leg origin the result is empty with no
error. -/
theorem od_legs_span : ∀ (serviceLegs : List Leg) (od : OD),
    od.legs serviceLegs = legsSpec serviceLegs od.origin od.destination
    ∧ ((∀ l ∈ serviceLegs, l.origin ≠ od.origin) → od.legs serviceLegs = [])
    ∧ (∃ l₁ l₂, serviceLegs = l₁ ++ od.legs serviceLegs ++ l₂)
    ∧ OD.legs ⟨0, 2, []⟩ legsABCD = [⟨0, 1⟩, ⟨1, 2⟩]
    ∧ OD.legs ⟨1, 3, []⟩ legsABCD = [⟨1, 2⟩, ⟨2, 3⟩] := by
  intro serviceLegs od
  refine ⟨legsScan_eq_spec _ _ _, fun h => legsScan_eq_nil _ h,
    legsScan_contiguous _ _ _, by decide, by decide⟩

/-- Claim C6: `Leg.passengers` is the concatenation, in the service's OD
iteration order and each OD's insertion order, of the passenger lists of
exactly those ODs whose `legs` contain this leg, and its length is the sum
of those ODs' passenger counts. -/
theorem leg_passengers_agg : ∀ (s : Service) (leg : Leg),
    leg.passengers s
      = (s.ods.filter fun kv => decide (leg ∈ kv.2.legs s.legs)).flatMap
          (fun kv => kv.2.passengers)
    ∧ (leg.passengers s).length
      = ((s.ods.filter fun kv => decide (leg ∈ kv.2.legs s.legs)).map
          (fun kv => kv.2.passengers.length)).sum := by
  intro s leg
  have h := foldl_filter_flatMap (fun kv : (Station × Station) × OD => leg ∈ kv.2.legs s.legs)
    (fun kv => kv.2.passengers) s.ods []
  constructor
  · exact h
  · rw [Leg.passengers, h, List.nil_append, List.length_flatMap]
    rfl

/-! C9 helpers -/

theorem dictLookup_map_isSome {α β : Type}
    (g : (Station × Station) × α → (Station × Station) × β)
    (hg : ∀ kv, (g kv).1 = kv.1) (m : List ((Station × Station) × α))
    (k : Station × Station) :
    (dictLookup (m.map g) k).isSome = (dictLookup m k).isSome := by
  induction m with
  | nil => rfl
  | cons kv rest ih =>
    rw [List.map_cons, dictLookup, dictLookup, hg kv]
    by_cases h : kv.1 = k
    · simp [h]
    · simp [h, ih]

theorem appendPassenger_lookup_isSome (s : Service) (q : Passenger)
    (k : Station × Station) :
    (dictLookup (appendPassenger s q).ods k).isSome = (dictLookup s.ods k).isSome := by
  apply dictLookup_map_isSome
  intro kv
  by_cases h : kv.1 = (q.origin, q.destination) <;> simp [h]

/-- Claim C9: `load_passenger_manifest` raises a lookup error (the `some`
branch of the returned passenger) exactly when some passenger's
`(origin, destination)` has no OD, and the load is fail-fast: every
passenger strictly before the first failing one has been appended to its
matching OD and nothing at or after the failing one has. -/
theorem load_manifest_fail_fast : ∀ (ps : List Passenger) (s : Service),
    ((Service.load_passenger_manifest s ps).2 = none ↔
       ∀ p ∈ ps, (dictLookup s.ods (p.origin, p.destination)).isSome = true)
    ∧ ((Service.load_passenger_manifest s ps).2 = none →
       (Service.load_passenger_manifest s ps).1 = ps.foldl appendPassenger s)
    ∧ (∀ p, (Service.load_passenger_manifest s ps).2 = some p →
        (dictLookup s.ods (p.origin, p.destination)).isSome = false
        ∧ ∃ l₁ l₂, ps = l₁ ++ p :: l₂
            ∧ (∀ q ∈ l₁, (dictLookup s.ods (q.origin, q.destination)).isSome = true)
            ∧ (Service.load_passenger_manifest s ps).1 = l₁.foldl appendPassenger s) := by
  intro ps
  induction ps with
  | nil =>
    intro s
    refine ⟨by simp [Service.load_passenger_manifest], fun _ => rfl, fun p hp => ?_⟩
    simp [Service.load_passenger_manifest] at hp
  | cons p rest ih =>
    intro s
    cases hk : dictLookup s.ods (p.origin, p.destination) with
    | none =>
      refine ⟨?_, ?_, ?_⟩
      · constructor
        · intro h
          simp [Service.load_passenger_manifest, hk] at h
        · intro h
          have := h p (List.mem_cons_self p rest)
          rw [hk] at this
          simp at this
      · intro h
        simp [Service.load_passenger_manifest, hk] at h
      · intro p' hp'
        simp only [Service.load_passenger_manifest, hk] at hp'
        cases hp'
        refine ⟨by rw [hk]; rfl, [], rest, rfl, by simp, ?_⟩
        simp [Service.load_passenger_manifest, hk]
    | some od =>
      have hstep : Service.load_passenger_manifest s (p :: rest)
          = Service.load_passenger_manifest (appendPassenger s p) rest := by
        simp [Service.load_passenger_manifest, hk]
      obtain ⟨ih1, ih2, ih3⟩ := ih (appendPassenger s p)
      have htrans : ∀ q : Passenger,
          (dictLookup (appendPassenger s p).ods (q.origin, q.destination)).isSome
            = (dictLookup s.ods (q.origin, q.destination)).isSome :=
        fun q => appendPassenger_lookup_isSome s p _
      refine ⟨?_, ?_, ?_⟩
      · rw [hstep, ih1]
        constructor
        · intro h q hq
          rcases List.mem_cons.mp hq with rfl | hq'
          · rw [hk]; rfl
          · rw [← htrans q]; exact h q hq'
        · intro h q hq
          rw [htrans q]; exact h q (List.mem_cons_of_mem p hq)
      · intro h
        rw [hstep] at h ⊢
        rw [ih2 h]
        rfl
      · intro p' hp'
        rw [hstep] at hp'
        obtain ⟨hfail, l₁, l₂, hsplit, hpre, hstate⟩ := ih3 p' hp'
        refine ⟨by rw [← htrans p']; exact hfail, p :: l₁, l₂, by rw [hsplit]; rfl, ?_, ?_⟩
        · intro q hq
          rcases List.mem_cons.mp hq with rfl | hq'
          · rw [hk]; rfl
          · rw [← htrans q]; exact hpre q hq'
        · rw [hstep, hstate]
          rfl

/-! Forecast lemmas -/

theorem PLe_refl (p : List (Int × Int)) : PLe p p := by
  induction p with
  | nil => exact List.Forall₂.nil
  | cons a t ih => exact List.Forall₂.cons ⟨rfl, le_refl _⟩ ih

theorem PLe_trans {a b c : List (Int × Int)} (h₁ : PLe a b) (h₂ : PLe b c) : PLe a c := by
  induction h₁ generalizing c with
  | nil => cases h₂; exact List.Forall₂.nil
  | cons h t ih =>
    cases h₂ with
    | cons h' t' => exact List.Forall₂.cons ⟨h.1.trans h'.1, h.2.trans h'.2⟩ (ih t')

theorem PLe_keys {q p : List (Int × Int)} (h : PLe q p) :
    q.map Prod.fst = p.map Prod.fst := by
  induction h with
  | nil => rfl
  | cons h t ih => simp [List.map_cons, h.1, ih]

theorem runDay_frame : ∀ (demand pricing : List (Int × Int)) (sold : Int) (money : ℚ),
    (∀ k ∈ pricing.map Prod.fst, (ilookup demand k).isSome = true) →
    ∃ p' sold' money',
      runDay demand pricing sold money = some (p', sold', money')
      ∧ PLe p' pricing
      ∧ sold ≤ sold'
      ∧ sumVals pricing - sumVals p' = sold' - sold := by
  intro demand pricing
  induction pricing with
  | nil =>
    intro sold money _
    exact ⟨[], sold, money, rfl, List.Forall₂.nil, le_refl _, by simp [sumVals]⟩
  | cons kv rest ih =>
    intro sold money hcov
    obtain ⟨k, c⟩ := kv
    have hk : (ilookup demand k).isSome = true := hcov k (by simp)
    obtain ⟨dem, hdem⟩ := Option.isSome_iff_exists.mp hk
    have hcov' : ∀ k' ∈ rest.map Prod.fst, (ilookup demand k').isSome = true :=
      fun k' hk' => hcov k' (by simp [hk'])
    by_cases hfill : min (dem - sold) c ≤ 0
    · obtain ⟨p', s', m', hrun, hple, hs, hsum⟩ := ih sold money hcov'
      refine ⟨(k, c) :: p', s', m', ?_, List.Forall₂.cons ⟨rfl, le_refl _⟩ hple, hs, ?_⟩
      · simp only [runDay, hdem]
        rw [if_pos hfill, hrun]
      · simp only [sumVals, List.map_cons, List.sum_cons] at hsum ⊢
        omega
    · obtain ⟨p', s', m', hrun, hple, hs, hsum⟩ :=
        ih (sold + min (dem - sold) c) (money + (k : ℚ) * ((min (dem - sold) c : Int) : ℚ)) hcov'
      refine ⟨(k, c - min (dem - sold) c) :: p', s', m', ?_,
        List.Forall₂.cons ⟨rfl, by omega⟩ hple, by omega, ?_⟩
      · simp only [runDay, hdem]
        rw [if_neg hfill, hrun]
      · simp only [sumVals, List.map_cons, List.sum_cons] at hsum ⊢
        omega

theorem runDay_nonneg : ∀ (demand pricing : List (Int × Int)) (sold : Int) (money : ℚ)
    (p' : List (Int × Int)) (s' : Int) (m' : ℚ),
    runDay demand pricing sold money = some (p', s', m') →
    (∀ kv ∈ pricing, 0 ≤ kv.2) → ∀ kv ∈ p', 0 ≤ kv.2 := by
  intro demand pricing
  induction pricing with
  | nil =>
    intro sold money p' s' m' hrun _
    simp only [runDay] at hrun
    cases hrun
    intro kv h
    simp at h
  | cons kv₀ rest ih =>
    intro sold money p' s' m' hrun hnn
    obtain ⟨k, c⟩ := kv₀
    cases hdem : ilookup demand k with
    | none =>
      simp only [runDay, hdem] at hrun
      exact Option.noConfusion hrun
    | some dem =>
      simp only [runDay, hdem] at hrun
      have hnn' : ∀ kv ∈ rest, 0 ≤ kv.2 := fun kv h => hnn kv (List.mem_cons_of_mem _ h)
      by_cases hfill : min (dem - sold) c ≤ 0
      · rw [if_pos hfill] at hrun
        cases hrec : runDay demand rest sold money with
        | none => rw [hrec] at hrun; cases hrun
        | some out =>
          obtain ⟨rest', ss, mm⟩ := out
          rw [hrec] at hrun
          cases hrun
          intro kv h
          rcases List.mem_cons.mp h with rfl | h'
          · exact hnn (k, c) (by simp)
          · exact ih sold money _ _ _ hrec hnn' kv h'
      · rw [if_neg hfill] at hrun
        cases hrec : runDay demand rest (sold + min (dem - sold) c)
            (money + (k : ℚ) * ((min (dem - sold) c : Int) : ℚ)) with
        | none => rw [hrec] at hrun; cases hrun
        | some out =>
          obtain ⟨rest', ss, mm⟩ := out
          rw [hrec] at hrun
          cases hrun
          intro kv h
          rcases List.mem_cons.mp h with rfl | h'
          · have := hnn (k, c) (by simp)
            simp only at this ⊢
            omega
          · exact ih _ _ _ _ _ hrec hnn' kv h'

theorem runDay_mono : ∀ {q p : List (Int × Int)}, PLe q p →
    ∀ (demand : List (Int × Int)) (sold_q sold_p : Int) (m_q m_p : ℚ)
      (q' p' : List (Int × Int)) (sq sp : Int) (mq mp : ℚ),
    sold_q ≤ sold_p →
    runDay demand q sold_q m_q = some (q', sq, mq) →
    runDay demand p sold_p m_p = some (p', sp, mp) →
    PLe q' p' ∧ sq ≤ sp := by
  intro q p hple
  induction hple with
  | nil =>
    intro demand sold_q sold_p m_q m_p q' p' sq sp mq mp hs hq hp
    simp only [runDay] at hq hp
    cases hq; cases hp
    exact ⟨List.Forall₂.nil, hs⟩
  | @cons a b q₀ p₀ hab t ih =>
    intro demand sold_q sold_p m_q m_p q' p' sq sp mq mp hs hq hp
    obtain ⟨k₁, cq⟩ := a
    obtain ⟨k₂, cp⟩ := b
    obtain ⟨hk, hc⟩ := hab
    simp only at hk hc
    subst hk
    cases hdem : ilookup demand k₁ with
    | none =>
      simp only [runDay, hdem] at hq
      exact Option.noConfusion hq
    | some dem =>
      simp only [runDay, hdem] at hq hp
      by_cases hfq : min (dem - sold_q) cq ≤ 0 <;> by_cases hfp : min (dem - sold_p) cp ≤ 0
      · rw [if_pos hfq] at hq
        rw [if_pos hfp] at hp
        cases hrq : runDay demand q₀ sold_q m_q with
        | none => rw [hrq] at hq; exact Option.noConfusion hq
        | some oq =>
          cases hrp : runDay demand p₀ sold_p m_p with
          | none => rw [hrp] at hp; exact Option.noConfusion hp
          | some op =>
            obtain ⟨q₁, sq₁, mq₁⟩ := oq
            obtain ⟨p₁, sp₁, mp₁⟩ := op
            rw [hrq] at hq; rw [hrp] at hp
            cases hq; cases hp
            obtain ⟨hrec, hsrec⟩ := ih demand sold_q sold_p m_q m_p _ _ _ _ _ _ hs hrq hrp
            exact ⟨List.Forall₂.cons ⟨rfl, hc⟩ hrec, hsrec⟩
      · rw [if_pos hfq] at hq
        rw [if_neg hfp] at hp
        cases hrq : runDay demand q₀ sold_q m_q with
        | none => rw [hrq] at hq; exact Option.noConfusion hq
        | some oq =>
          cases hrp : runDay demand p₀ (sold_p + min (dem - sold_p) cp)
              (m_p + (k₁ : ℚ) * ((min (dem - sold_p) cp : Int) : ℚ)) with
          | none => rw [hrp] at hp; exact Option.noConfusion hp
          | some op =>
            obtain ⟨q₁, sq₁, mq₁⟩ := oq
            obtain ⟨p₁, sp₁, mp₁⟩ := op
            rw [hrq] at hq; rw [hrp] at hp
            cases hq; cases hp
            obtain ⟨hrec, hsrec⟩ :=
              ih demand sold_q (sold_p + min (dem - sold_p) cp) m_q _ _ _ _ _ _ _
                (by omega) hrq hrp
            exact ⟨List.Forall₂.cons ⟨rfl, by omega⟩ hrec, hsrec⟩
      · rw [if_neg hfq] at hq
        rw [if_pos hfp] at hp
        cases hrq : runDay demand q₀ (sold_q + min (dem - sold_q) cq)
            (m_q + (k₁ : ℚ) * ((min (dem - sold_q) cq : Int) : ℚ)) with
        | none => rw [hrq] at hq; exact Option.noConfusion hq
        | some oq =>
          cases hrp : runDay demand p₀ sold_p m_p with
          | none => rw [hrp] at hp; exact Option.noConfusion hp
          | some op =>
            obtain ⟨q₁, sq₁, mq₁⟩ := oq
            obtain ⟨p₁, sp₁, mp₁⟩ := op
            rw [hrq] at hq; rw [hrp] at hp
            cases hq; cases hp
            obtain ⟨hrec, hsrec⟩ :=
              ih demand (sold_q + min (dem - sold_q) cq) sold_p _ m_p _ _ _ _ _ _
                (by omega) hrq hrp
            exact ⟨List.Forall₂.cons ⟨rfl, by omega⟩ hrec, hsrec⟩
      · rw [if_neg hfq] at hq
        rw [if_neg hfp] at hp
        cases hrq : runDay demand q₀ (sold_q + min (dem - sold_q) cq)
            (m_q + (k₁ : ℚ) * ((min (dem - sold_q) cq : Int) : ℚ)) with
        | none => rw [hrq] at hq; exact Option.noConfusion hq
        | some oq =>
          cases hrp : runDay demand p₀ (sold_p + min (dem - sold_p) cp)
              (m_p + (k₁ : ℚ) * ((min (dem - sold_p) cp : Int) : ℚ)) with
          | none => rw [hrp] at hp; exact Option.noConfusion hp
          | some op =>
            obtain ⟨q₁, sq₁, mq₁⟩ := oq
            obtain ⟨p₁, sp₁, mp₁⟩ := op
            rw [hrq] at hq; rw [hrp] at hp
            cases hq; cases hp
            obtain ⟨hrec, hsrec⟩ :=
              ih demand (sold_q + min (dem - sold_q) cq) (sold_p + min (dem - sold_p) cp)
                _ _ _ _ _ _ _ _ (by omega) hrq hrp
            exact ⟨List.Forall₂.cons ⟨rfl, by omega⟩ hrec, hsrec⟩

theorem forecastAux_frame : ∀ (dm : List (Int × List (Int × Int)))
    (pricing : List (Int × Int)) (hc : Int) (money : ℚ),
    (∀ dd ∈ dm, ∀ k ∈ pricing.map Prod.fst, (ilookup dd.2 k).isSome = true) →
    ∃ out pfin, forecastAux pricing hc money dm = some (out, pfin)
      ∧ out.map Prod.fst = dm.map Prod.fst
      ∧ PLe pfin pricing
      ∧ sumVals pricing - sumVals pfin = (out.getLastD (0, hc, 0)).2.1 - hc := by
  intro dm
  induction dm with
  | nil =>
    intro pricing hc money _
    exact ⟨[], pricing, rfl, rfl, PLe_refl pricing, by simp [List.getLastD]⟩
  | cons dd rest ih =>
    intro pricing hc money hcov
    obtain ⟨day, demand⟩ := dd
    obtain ⟨p₁, s₁, m₁, hrun, hple₁, hs₁, hsum₁⟩ :=
      runDay_frame demand pricing 0 money (hcov (day, demand) (by simp))
    have hkeys : p₁.map Prod.fst = pricing.map Prod.fst := PLe_keys hple₁
    have hcov' : ∀ dd ∈ rest, ∀ k ∈ p₁.map Prod.fst, (ilookup dd.2 k).isSome = true := by
      intro dd hdd k hk
      rw [hkeys] at hk
      exact hcov dd (List.mem_cons_of_mem _ hdd) k hk
    obtain ⟨out', pfin, hrec, hmap, hple₂, hsum₂⟩ := ih p₁ (hc + s₁) m₁ hcov'
    refine ⟨(day, hc + s₁, m₁) :: out', pfin, ?_, by simp [hmap], PLe_trans hple₂ hple₁, ?_⟩
    · simp only [forecastAux, hrun, hrec]
    · rw [List.getLastD_cons]
      cases out' with
      | nil =>
        simp only [List.getLastD] at hsum₂ ⊢
        omega
      | cons t ts =>
        rw [List.getLastD_cons] at hsum₂ ⊢
        have hdefault : ts.getLastD t = ts.getLastD t := rfl
        omega

theorem forecastAux_nonneg : ∀ (dm : List (Int × List (Int × Int)))
    (pricing : List (Int × Int)) (hc : Int) (money : ℚ)
    (out : List (Int × Int × ℚ)) (pfin : List (Int × Int)),
    forecastAux pricing hc money dm = some (out, pfin) →
    (∀ kv ∈ pricing, 0 ≤ kv.2) → ∀ kv ∈ pfin, 0 ≤ kv.2 := by
  intro dm
  induction dm with
  | nil =>
    intro pricing hc money out pfin h hnn
    simp only [forecastAux] at h
    cases h
    exact hnn
  | cons dd rest ih =>
    intro pricing hc money out pfin h hnn
    obtain ⟨day, demand⟩ := dd
    cases hrun : runDay demand pricing 0 money with
    | none =>
      simp only [forecastAux, hrun] at h
      exact Option.noConfusion h
    | some o =>
      obtain ⟨p₁, s₁, m₁⟩ := o
      simp only [forecastAux, hrun] at h
      cases hrec : forecastAux p₁ (hc + s₁) m₁ rest with
      | none => rw [hrec] at h; exact Option.noConfusion h
      | some o₂ =>
        obtain ⟨out₂, pfin₂⟩ := o₂
        rw [hrec] at h
        cases h
        exact ih p₁ (hc + s₁) m₁ _ _ hrec (runDay_nonneg demand pricing 0 money _ _ _ hrun hnn)

theorem forecastAux_mono : ∀ (dm : List (Int × List (Int × Int)))
    {q p : List (Int × Int)}, PLe q p →
    ∀ (hc_q hc_p : Int) (m_q m_p : ℚ) (out_q out_p : List (Int × Int × ℚ))
      (pf_q pf_p : List (Int × Int)),
    forecastAux q hc_q m_q dm = some (out_q, pf_q) →
    forecastAux p hc_p m_p dm = some (out_p, pf_p) →
    List.Forall₂ (· ≤ ·) (increments hc_q out_q) (increments hc_p out_p)
      ∧ PLe pf_q pf_p := by
  intro dm
  induction dm with
  | nil =>
    intro q p hple hc_q hc_p m_q m_p out_q out_p pf_q pf_p hq hp
    simp only [forecastAux] at hq hp
    cases hq; cases hp
    exact ⟨by simp [increments], hple⟩
  | cons dd rest ih =>
    intro q p hple hc_q hc_p m_q m_p out_q out_p pf_q pf_p hq hp
    obtain ⟨day, demand⟩ := dd
    cases hrq : runDay demand q 0 m_q with
    | none => simp only [forecastAux, hrq] at hq; exact Option.noConfusion hq
    | some oq =>
      obtain ⟨q₁, sq₁, mq₁⟩ := oq
      cases hrp : runDay demand p 0 m_p with
      | none => simp only [forecastAux, hrp] at hp; exact Option.noConfusion hp
      | some op =>
        obtain ⟨p₁, sp₁, mp₁⟩ := op
        simp only [forecastAux, hrq] at hq
        simp only [forecastAux, hrp] at hp
        obtain ⟨hple₁, hs₁⟩ :=
          runDay_mono hple demand 0 0 m_q m_p _ _ _ _ _ _ (le_refl 0) hrq hrp
        cases hreq : forecastAux q₁ (hc_q + sq₁) mq₁ rest with
        | none => rw [hreq] at hq; exact Option.noConfusion hq
        | some o₂ =>
          cases hrep : forecastAux p₁ (hc_p + sp₁) mp₁ rest with
          | none => rw [hrep] at hp; exact Option.noConfusion hp
          | some o₃ =>
            obtain ⟨outq₂, pfq₂⟩ := o₂
            obtain ⟨outp₂, pfp₂⟩ := o₃
            rw [hreq] at hq; rw [hrep] at hp
            cases hq; cases hp
            obtain ⟨hinc, hple₂⟩ :=
              ih hple₁ (hc_q + sq₁) (hc_p + sp₁) mq₁ mp₁ _ _ _ _ hreq hrep
            refine ⟨?_, hple₂⟩
            simp only [increments]
            exact List.Forall₂.cons (by omega) hinc

/-- Claim C7: fully consuming `forecast` on a well-formed input succeeds
and yields one triplet per demand-matrix day in the matrix's order; its only
effect on `pricing` is a pointwise decrease of the inventory values (keys
and their order untouched), and the total decrease equals the total seats
sold — the final cumulative count minus the OD's pre-forecast passenger
count. The embedding is pure, so the OD's passengers and the demand matrix
are unchanged by construction. -/
theorem forecast_frame : ∀ (od : OD) (pricing : List (Int × Int))
    (dm : List (Int × List (Int × Int))),
    (∀ dd ∈ dm, ∀ k ∈ pricing.map Prod.fst, (ilookup dd.2 k).isSome = true) →
    ∃ out pfin,
      od.forecast pricing dm = some (out, pfin)
      ∧ out.length = dm.length
      ∧ out.map Prod.fst = dm.map Prod.fst
      ∧ PLe pfin pricing
      ∧ sumVals pricing - sumVals pfin
          = (out.getLastD (0, (od.passengers.length : Int), 0)).2.1
            - (od.passengers.length : Int) := by
  intro od pricing dm hcov
  obtain ⟨out, pfin, heq, hmap, hple, hsum⟩ :=
    forecastAux_frame dm pricing (od.passengers.length : Int)
      ((od.passengers.map Passenger.price).sum) hcov
  refine ⟨out, pfin, heq, ?_, hmap, hple, hsum⟩
  have := congrArg List.length hmap
  simpa using this

/-- Claim C10: when every inventory value of `pricing` is non-negative,
every value is still non-negative after a full `forecast` run — the
algorithm never oversells a price level. -/
theorem forecast_never_negative : ∀ (od : OD) (pricing : List (Int × Int))
    (dm : List (Int × List (Int × Int))) (out : List (Int × Int × ℚ))
    (pfin : List (Int × Int)),
    (∀ kv ∈ pricing, 0 ≤ kv.2) →
    od.forecast pricing dm = some (out, pfin) →
    ∀ kv ∈ pfin, 0 ≤ kv.2 := by
  intro od pricing dm out pfin hnn heq
  exact forecastAux_nonneg dm pricing _ _ out pfin heq hnn

/-- Claim C8: consuming `forecast` twice in succession, the second run
starting from the pricing the first run depleted, sells day by day no more
seats than the first run did (inventory only shrinks). -/
theorem forecast_second_run_sells_no_more : ∀ (od : OD) (pricing : List (Int × Int))
    (dm : List (Int × List (Int × Int))) (out₁ p₁ out₂ p₂ : _),
    (∀ dd ∈ dm, ∀ k ∈ pricing.map Prod.fst, (ilookup dd.2 k).isSome = true) →
    od.forecast pricing dm = some (out₁, p₁) →
    od.forecast p₁ dm = some (out₂, p₂) →
    List.Forall₂ (· ≤ ·) (increments (od.passengers.length : Int) out₂)
      (increments (od.passengers.length : Int) out₁) := by
  intro od pricing dm out₁ p₁ out₂ p₂ hcov h₁ h₂
  obtain ⟨out', pfin', heq', _, hple', _⟩ :=
    forecastAux_frame dm pricing (od.passengers.length : Int)
      ((od.passengers.map Passenger.price).sum) hcov
  rw [OD.forecast] at h₁
  rw [heq'] at h₁
  cases h₁
  exact (forecastAux_mono dm hple' _ _ _ _ _ _ _ _ h₂ heq').1

/-! C1 helpers: runDay agrees with the spec-side fold over price levels -/

theorem ilookup_cons_self (k c : Int) (rest : List (Int × Int)) :
    ilookup ((k, c) :: rest) k = some c := by
  simp [ilookup]

theorem ilookup_append_not_mem {k : Int} {l₁ : List (Int × Int)}
    (h : k ∉ l₁.map Prod.fst) (l₂ : List (Int × Int)) :
    ilookup (l₁ ++ l₂) k = ilookup l₂ k := by
  induction l₁ with
  | nil => rfl
  | cons kv rest ih =>
    have hne : ¬ kv.1 = k := by
      intro he
      exact h (by simp [← he])
    rw [List.cons_append, ilookup, if_neg hne]
    exact ih fun hm => h (by simp [hm])

theorem iupdate_not_mem {k : Int} {m : List (Int × Int)}
    (h : k ∉ m.map Prod.fst) (v : Int) : iupdate m k v = m := by
  rw [iupdate]
  apply List.map_congr_left ?_ |>.trans (List.map_id m)
  intro kv hkv
  have hne : ¬ kv.1 = k := by
    intro he
    exact h (he ▸ List.mem_map_of_mem Prod.fst hkv)
  simp [hne]

theorem iupdate_append (l₁ l₂ : List (Int × Int)) (k v : Int) :
    iupdate (l₁ ++ l₂) k v = iupdate l₁ k v ++ iupdate l₂ k v := by
  simp [iupdate, List.map_append]

theorem iupdate_cons_self {k : Int} {rest : List (Int × Int)}
    (h : k ∉ rest.map Prod.fst) (c v : Int) :
    iupdate ((k, c) :: rest) k v = (k, v) :: rest := by
  rw [iupdate, List.map_cons]
  simp only [if_pos rfl, if_true]
  rw [show (rest.map fun kv => if kv.1 = k then (k, v) else kv) = iupdate rest k v from rfl,
    iupdate_not_mem h]

theorem specFold_eq : ∀ (suffix pre demand : List (Int × Int))
    (sold : Int) (money : ℚ) (suffix' : List (Int × Int)) (sold' : Int) (money' : ℚ),
    ((pre ++ suffix).map Prod.fst).Nodup →
    runDay demand suffix sold money = some (suffix', sold', money') →
    (suffix.map Prod.fst).foldl (specPrice demand) (pre ++ suffix, sold, money)
      = (pre ++ suffix', sold', money') := by
  intro suffix
  induction suffix with
  | nil =>
    intro pre demand sold money suffix' sold' money' _ hrun
    simp only [runDay] at hrun
    cases hrun
    rfl
  | cons kv rest ih =>
    intro pre demand sold money suffix' sold' money' hnd hrun
    obtain ⟨k, c⟩ := kv
    have hkpre : k ∉ pre.map Prod.fst := by
      have := hnd
      rw [List.map_append] at this
      have h2 := (List.nodup_append.mp this).2.2
      intro hk
      exact h2 hk (by simp)
    have hkrest : k ∉ rest.map Prod.fst := by
      have := hnd
      rw [List.map_append] at this
      have h2 := (List.nodup_append.mp this).2.1
      simp only [List.map_cons] at h2
      exact (List.nodup_cons.mp h2).1
    cases hdem : ilookup demand k with
    | none =>
      simp only [runDay, hdem] at hrun
      exact Option.noConfusion hrun
    | some dem =>
      simp only [runDay, hdem] at hrun
      have hcount : ilookup (pre ++ (k, c) :: rest) k = some c := by
        rw [ilookup_append_not_mem hkpre, ilookup_cons_self]
      have hstep : specPrice demand (pre ++ (k, c) :: rest, sold, money) k
          = if min (dem - sold) c ≤ 0 then (pre ++ (k, c) :: rest, sold, money)
            else (pre ++ (k, c - min (dem - sold) c) :: rest, sold + min (dem - sold) c,
              money + (k : ℚ) * ((min (dem - sold) c : Int) : ℚ)) := by
        rw [specPrice]
        simp only [hcount, hdem, Option.getD_some]
        by_cases hfill : min (dem - sold) c ≤ 0
        · rw [if_pos hfill, if_pos hfill]
        · rw [if_neg hfill, if_neg hfill]
          rw [iupdate_append, iupdate_not_mem hkpre, iupdate_cons_self hkrest]
      by_cases hfill : min (dem - sold) c ≤ 0
      · rw [if_pos hfill] at hrun
        cases hrec : runDay demand rest sold money with
        | none => rw [hrec] at hrun; exact Option.noConfusion hrun
        | some o =>
          obtain ⟨rest', s₂, m₂⟩ := o
          rw [hrec] at hrun
          cases hrun
          rw [List.map_cons, List.foldl_cons, hstep, if_pos hfill]
          have hnd' : (((pre ++ [(k, c)]) ++ rest).map Prod.fst).Nodup := by
            rw [List.append_assoc]
            exact hnd
          have := ih (pre ++ [(k, c)]) demand sold money _ _ _ hnd' hrec
          rw [List.append_assoc] at this
          simpa using this
      · rw [if_neg hfill] at hrun
        cases hrec : runDay demand rest (sold + min (dem - sold) c)
            (money + (k : ℚ) * ((min (dem - sold) c : Int) : ℚ)) with
        | none => rw [hrec] at hrun; exact Option.noConfusion hrun
        | some o =>
          obtain ⟨rest', s₂, m₂⟩ := o
          rw [hrec] at hrun
          cases hrun
          rw [List.map_cons, List.foldl_cons, hstep, if_neg hfill]
          have hnd' : (((pre ++ [(k, c - min (dem - sold) c)]) ++ rest).map Prod.fst).Nodup := by
            rw [List.append_assoc]
            simp only [List.map_append, List.map_cons] at hnd ⊢
            simpa using hnd
          have := ih (pre ++ [(k, c - min (dem - sold) c)]) demand (sold + min (dem - sold) c)
            (money + (k : ℚ) * ((min (dem - sold) c : Int) : ℚ)) _ _ _ hnd' hrec
          rw [List.append_assoc] at this
          simpa using this

theorem forecastAux_eq_spec : ∀ (dm : List (Int × List (Int × Int)))
    (pricing : List (Int × Int)) (hc : Int) (money : ℚ),
    (pricing.map Prod.fst).Nodup →
    (∀ dd ∈ dm, ∀ k ∈ pricing.map Prod.fst, (ilookup dd.2 k).isSome = true) →
    forecastAux pricing hc money dm = some (forecastSpecAux pricing hc money dm) := by
  intro dm
  induction dm with
  | nil =>
    intro pricing hc money _ _
    rfl
  | cons dd rest ih =>
    intro pricing hc money hnd hcov
    obtain ⟨day, demand⟩ := dd
    obtain ⟨p₁, s₁, m₁, hrun, hple₁, _, _⟩ :=
      runDay_frame demand pricing 0 money (hcov (day, demand) (by simp))
    have hsd : specDay demand pricing money = (p₁, s₁, m₁) := by
      have := specFold_eq pricing [] demand 0 money p₁ s₁ m₁ (by simpa using hnd)
        (by simpa using hrun)
      simpa [specDay] using this
    have hkeys : p₁.map Prod.fst = pricing.map Prod.fst := PLe_keys hple₁
    have hrec := ih p₁ (hc + s₁) m₁ (by rw [hkeys]; exact hnd)
      (by
        intro dd hdd k hk
        rw [hkeys] at hk
        exact hcov dd (List.mem_cons_of_mem _ hdd) k hk)
    simp only [forecastAux, forecastSpecAux, hrun, hsd, hrec]

/-- Claim C1: `forecast` follows the spec's per-day rationing algorithm.
For every OD, pricing with ascending price keys, and demand matrix with
ascending days each covering every price of `pricing`, the source's
`forecast` computes exactly what `forecastSpecOf` — a direct transcription
of the spec's steps (`want = demand[p] - sold`, `fill = min want count`,
skip on `fill ≤ 0` without stopping the scan, otherwise decrement
`pricing[p]`, grow `sold` and `money`, then add `sold` to `head_count` and
emit `(day, head_count, money)`, seeded from the OD's current passengers) —
prescribes. -/
theorem forecast_follows_spec : ∀ (od : OD) (pricing : List (Int × Int))
    (dm : List (Int × List (Int × Int))),
    (pricing.map Prod.fst).Pairwise (· < ·) →
    (dm.map Prod.fst).Pairwise (· < ·) →
    (∀ dd ∈ dm, ∀ k ∈ pricing.map Prod.fst, (ilookup dd.2 k).isSome = true) →
    od.forecast pricing dm = some (forecastSpecOf od pricing dm) := by
  intro od pricing dm hasc _ hcov
  exact forecastAux_eq_spec dm pricing _ _ (hasc.imp fun h => Int.ne_of_lt h) hcov

/-! C3 helpers -/

theorem dropWhile_day_gt : ∀ (rest : List Passenger) (day : Int),
    (∀ q ∈ rest, day ≤ q.sale_day_x) → List.Sorted byDay rest →
    ∀ q ∈ rest.dropWhile (fun q => decide (q.sale_day_x = day)), day < q.sale_day_x := by
  intro rest
  induction rest with
  | nil => intro day _ _ q hq; simp [List.dropWhile] at hq
  | cons r rest' ih =>
    intro day hle hs q hq
    by_cases hr : r.sale_day_x = day
    · rw [List.dropWhile_cons, if_pos (by simpa using hr)] at hq
      exact ih day (fun x hx => hle x (List.mem_cons_of_mem _ hx))
        (List.sorted_cons.mp hs).2 q hq
    · rw [List.dropWhile_cons, if_neg (by simpa using hr)] at hq
      have hrday : day < r.sale_day_x :=
        lt_of_le_of_ne (hle r (List.mem_cons_self _ _)) (Ne.symm hr)
      rcases List.mem_cons.mp hq with rfl | hq'
      · exact hrday
      · exact lt_of_lt_of_le hrday ((List.sorted_cons.mp hs).1 q hq')

theorem dedup_head_run : ∀ (t r : List Int) (day : Int),
    (∀ x ∈ t, x = day) → (∀ x ∈ r, x ≠ day) →
    (day :: (t ++ r)).dedup = day :: r.dedup := by
  intro t
  induction t with
  | nil =>
    intro r day _ hr
    rw [List.nil_append, List.dedup_cons_of_not_mem]
    intro hmem
    exact hr day hmem rfl
  | cons x t' ih =>
    intro r day ht hr
    have hx : x = day := ht x (List.mem_cons_self _ _)
    subst hx
    rw [List.cons_append, List.dedup_cons_of_mem (by simp),
      ih r x (fun y hy => ht y (List.mem_cons_of_mem _ hy)) hr]

theorem historyFrom_eq : ∀ (l : List Passenger) (hc : Int) (w : ℚ),
    List.Sorted byDay l →
    historyFrom l hc w = ((l.map Passenger.sale_day_x).dedup).map
      (fun d => (d,
        hc + ((l.filter fun p => decide (p.sale_day_x ≤ d)).length : Int),
        w + ((l.filter fun p => decide (p.sale_day_x ≤ d)).map Passenger.price).sum)) := by
  intro l hc w
  induction l, hc, w using historyFrom.induct with
  | case1 hc w => intro _; simp [historyFrom]
  | case2 p rest head_count wallet day grp rest' head_count' wallet' ih =>
    intro hS
    have hle : ∀ q ∈ rest, p.sale_day_x ≤ q.sale_day_x :=
      fun q hq => (List.sorted_cons.mp hS).1 q hq
    have hsrest : List.Sorted byDay rest := (List.sorted_cons.mp hS).2
    have hgt : ∀ q ∈ rest.dropWhile (fun q => decide (q.sale_day_x = p.sale_day_x)),
        p.sale_day_x < q.sale_day_x := dropWhile_day_gt rest p.sale_day_x hle hsrest
    have hTmem : ∀ q ∈ rest.takeWhile (fun q => decide (q.sale_day_x = p.sale_day_x)),
        q.sale_day_x = p.sale_day_x :=
      fun q hq => by simpa using List.mem_takeWhile_imp hq
    have hsplit : rest.takeWhile (fun q => decide (q.sale_day_x = p.sale_day_x))
        ++ rest.dropWhile (fun q => decide (q.sale_day_x = p.sale_day_x)) = rest :=
      List.takeWhile_append_dropWhile _ _
    have hSR : List.Sorted byDay
        (rest.dropWhile (fun q => decide (q.sale_day_x = p.sale_day_x))) :=
      List.Pairwise.sublist (List.dropWhile_sublist _) hsrest
    have hdedup : ((p :: rest).map Passenger.sale_day_x).dedup
        = p.sale_day_x ::
          ((rest.dropWhile (fun q => decide (q.sale_day_x = p.sale_day_x))).map
            Passenger.sale_day_x).dedup := by
      have hmapsplit : rest.map Passenger.sale_day_x
          = (rest.takeWhile (fun q => decide (q.sale_day_x = p.sale_day_x))).map
              Passenger.sale_day_x
            ++ (rest.dropWhile (fun q => decide (q.sale_day_x = p.sale_day_x))).map
              Passenger.sale_day_x := by
        rw [← List.map_append, hsplit]
      rw [List.map_cons, hmapsplit]
      exact dedup_head_run _ _ _
        (by
          intro x hx
          obtain ⟨q, hq, rfl⟩ := List.mem_map.mp hx
          exact hTmem q hq)
        (by
          intro x hx
          obtain ⟨q, hq, rfl⟩ := List.mem_map.mp hx
          exact ne_of_gt (hgt q hq))
    have hfilter_all : ∀ d : Int, p.sale_day_x ≤ d →
        (p :: rest).filter (fun q => decide (q.sale_day_x ≤ d))
          = p :: (rest.takeWhile (fun q => decide (q.sale_day_x = p.sale_day_x))
            ++ (rest.dropWhile (fun q => decide (q.sale_day_x = p.sale_day_x))).filter
                (fun q => decide (q.sale_day_x ≤ d))) := by
      intro d hd
      have h1 : rest.filter (fun q => decide (q.sale_day_x ≤ d))
          = (rest.takeWhile (fun q => decide (q.sale_day_x = p.sale_day_x))
            ++ rest.dropWhile (fun q => decide (q.sale_day_x = p.sale_day_x))).filter
              (fun q => decide (q.sale_day_x ≤ d)) := by
        rw [hsplit]
      rw [List.filter_cons, if_pos (by simpa using hd), h1, List.filter_append,
        List.filter_eq_self.mpr]
      intro q hq
      simpa using le_trans (le_of_eq (hTmem q hq)) hd
    have hfilter_day :
        (p :: rest).filter (fun q => decide (q.sale_day_x ≤ p.sale_day_x))
          = p :: rest.takeWhile (fun q => decide (q.sale_day_x = p.sale_day_x)) := by
      rw [hfilter_all p.sale_day_x (le_refl _), List.filter_eq_nil_iff.mpr, List.append_nil]
      intro q hq
      simpa using not_le_of_lt (hgt q hq)
    have e1 : rest' = List.dropWhile (fun q => decide (q.sale_day_x = p.sale_day_x)) rest :=
      rfl
    have e2 : head_count' = head_count
        + ((p :: List.takeWhile (fun q => decide (q.sale_day_x = p.sale_day_x)) rest).length
          : Int) := rfl
    have e3 : wallet' = wallet
        + (p.price
            :: List.map Passenger.price
              (List.takeWhile (fun q => decide (q.sale_day_x = p.sale_day_x)) rest)).sum :=
      rfl
    rw [e1, e2, e3] at ih
    rw [historyFrom]
    rw [hdedup, List.map_cons, ih hSR]
    congr 1
    · beta_reduce
      rw [hfilter_day]
      rfl
    · apply List.map_congr_left
      intro d hd
      beta_reduce
      have hday : p.sale_day_x < d := by
        obtain ⟨q, hq, rfl⟩ :=
          List.mem_map.mp (List.mem_dedup.mp hd)
        exact hgt q hq
      rw [hfilter_all d (le_of_lt hday)]
      refine Prod.ext rfl (Prod.ext ?_ ?_)
      · simp only [List.length_cons, List.length_append]
        push_cast
        ring
      · simp only [List.map_cons, List.map_append, List.sum_cons, List.sum_append]
        ring

theorem history_eq_historySpec (od : OD) : od.history = historySpec od := by
  rw [OD.history, historyFrom_eq _ 0 0 (List.sorted_insertionSort byDay od.passengers),
    historySpec]
  apply List.map_congr_left
  intro d _
  have hperm : (List.insertionSort byDay od.passengers).Perm od.passengers :=
    List.perm_insertionSort byDay od.passengers
  have hpf := hperm.filter fun p => decide (p.sale_day_x ≤ d)
  rw [hpf.length_eq, ((hpf.map Passenger.price).sum_eq :)]
  simp

theorem filter_length_mono {α : Type} (p q : α → Bool) (h : ∀ a, p a = true → q a = true) :
    ∀ l : List α, (l.filter p).length ≤ (l.filter q).length := by
  intro l
  induction l with
  | nil => simp
  | cons a t ih =>
    rw [List.filter_cons, List.filter_cons]
    by_cases hp : p a
    · rw [if_pos hp, if_pos (h a hp)]
      simpa using ih
    · rw [if_neg hp]
      by_cases hq : q a
      · rw [if_pos hq]
        simp only [List.length_cons]
        omega
      · rw [if_neg hq]
        exact ih

theorem filter_sum_mono (p q : Passenger → Bool) (h : ∀ a, p a = true → q a = true) :
    ∀ l : List Passenger, (∀ a ∈ l, 0 ≤ a.price) →
      ((l.filter p).map Passenger.price).sum ≤ ((l.filter q).map Passenger.price).sum := by
  intro l
  induction l with
  | nil => simp
  | cons a t ih =>
    intro hnn
    have hnt : ∀ x ∈ t, 0 ≤ x.price := fun x hx => hnn x (List.mem_cons_of_mem _ hx)
    have hna : 0 ≤ a.price := hnn a (List.mem_cons_self _ _)
    rw [List.filter_cons, List.filter_cons]
    by_cases hp : p a
    · rw [if_pos hp, if_pos (h a hp)]
      simp only [List.map_cons, List.sum_cons]
      exact add_le_add_left (ih hnt) _
    · rw [if_neg hp]
      by_cases hq : q a
      · rw [if_pos hq]
        simp only [List.map_cons, List.sum_cons]
        have := ih hnt
        linarith
      · rw [if_neg hq]
        exact ih hnt

theorem sorted_getLast_ge : ∀ (X : List Int), List.Sorted (· ≤ ·) X →
    ∀ d, X.getLast? = some d → ∀ x ∈ X, x ≤ d := by
  intro X
  induction X with
  | nil => intro _ d hd; cases hd
  | cons a t ih =>
    intro hs d hd x hx
    cases t with
    | nil =>
      simp only [List.getLast?_singleton] at hd
      cases hd
      have : x = a := by simpa using hx
      exact le_of_eq this
    | cons b t' =>
      rw [List.getLast?_cons_cons] at hd
      have hbt := ih (List.sorted_cons.mp hs).2 d hd
      rcases List.mem_cons.mp hx with rfl | hx'
      · exact le_trans ((List.sorted_cons.mp hs).1 b (by simp)) (hbt b (by simp))
      · exact hbt x hx'

/-- Claim C3 (amended): `history()` equals the reference computation — one
triplet per distinct sale day in ascending order carrying cumulative count
and cumulative revenue — hence its `day_x` column is strictly ascending, the
count accumulator is monotonically non-decreasing, the revenue accumulator
is monotonically non-decreasing provided every passenger's price is
non-negative (the amendment: a negative price makes revenue drop, see the
counterexample), and the final entry carries the OD's total passenger count
and total price sum. -/
theorem history_reference : ∀ od : OD,
    od.history = historySpec od
    ∧ (od.history.map Prod.fst).Pairwise (· < ·)
    ∧ List.Chain' (fun a b => a.2.1 ≤ b.2.1) od.history
    ∧ ((∀ q ∈ od.passengers, 0 ≤ q.price) →
        List.Chain' (fun a b => a.2.2 ≤ b.2.2) od.history)
    ∧ (∀ t, od.history.getLast? = some t →
        t.2.1 = (od.passengers.length : Int)
        ∧ t.2.2 = (od.passengers.map Passenger.price).sum) := by
  intro od
  have hspec := history_eq_historySpec od
  have hsortS : List.Sorted byDay (List.insertionSort byDay od.passengers) :=
    List.sorted_insertionSort byDay od.passengers
  have hsortD : List.Sorted (· ≤ ·)
      (((List.insertionSort byDay od.passengers).map Passenger.sale_day_x).dedup) :=
    List.Pairwise.sublist (List.dedup_sublist _)
      (List.Pairwise.map Passenger.sale_day_x (fun _ _ h => h) hsortS)
  have hnodupD :
      (((List.insertionSort byDay od.passengers).map Passenger.sale_day_x).dedup).Nodup :=
    List.nodup_dedup _
  have hlt :
      (((List.insertionSort byDay od.passengers).map Passenger.sale_day_x).dedup).Pairwise
        (· < ·) :=
    (hsortD.and hnodupD).imp fun h => lt_of_le_of_ne h.1 h.2
  have hdays : od.history.map Prod.fst
      = ((List.insertionSort byDay od.passengers).map Passenger.sale_day_x).dedup := by
    rw [hspec, historySpec, List.map_map]
    conv_rhs => rw [← List.map_id
      (((List.insertionSort byDay od.passengers).map Passenger.sale_day_x).dedup)]
    apply List.map_congr_left
    intro d _
    rfl
  refine ⟨hspec, ?_, ?_, ?_, ?_⟩
  · rw [hdays]
    exact hlt
  · rw [hspec, historySpec, List.chain'_map]
    apply List.Pairwise.chain'
    apply hlt.imp
    intro d d' hdd
    simp only []
    have := filter_length_mono (fun p : Passenger => decide (p.sale_day_x ≤ d))
      (fun p : Passenger => decide (p.sale_day_x ≤ d'))
      (fun a ha => by
        simp only [decide_eq_true_eq] at ha ⊢
        exact le_trans ha (le_of_lt hdd)) od.passengers
    exact_mod_cast this
  · intro hnn
    rw [hspec, historySpec, List.chain'_map]
    apply List.Pairwise.chain'
    apply hlt.imp
    intro d d' hdd
    simp only []
    exact filter_sum_mono (fun p : Passenger => decide (p.sale_day_x ≤ d))
      (fun p : Passenger => decide (p.sale_day_x ≤ d'))
      (fun a ha => by
        simp only [decide_eq_true_eq] at ha ⊢
        exact le_trans ha (le_of_lt hdd)) od.passengers hnn
  · intro t ht
    rw [hspec, historySpec, List.getLast?_map] at ht
    obtain ⟨d, hd, hfd⟩ := Option.map_eq_some'.mp ht
    have hall : ∀ q ∈ od.passengers, q.sale_day_x ≤ d := by
      intro q hq
      apply sorted_getLast_ge _ hsortD d hd
      rw [List.mem_dedup, List.mem_map]
      exact ⟨q, (List.perm_insertionSort byDay od.passengers).mem_iff.mpr hq, rfl⟩
    have hfull : od.passengers.filter (fun p => decide (p.sale_day_x ≤ d)) = od.passengers :=
      List.filter_eq_self.mpr fun q hq => by simpa using hall q hq
    rw [← hfd, hfull]
    exact ⟨rfl, rfl⟩

/-- Claim C3's counterexample: for an OD holding a passenger priced 5 on day
−2 and one priced −3 on day −1, `history()` is `[(-2,1,5), (-1,2,2)]`, whose
revenue column decreases — so the revenue accumulator of `history()` is not
monotone for arbitrary (possibly negative) prices. -/
theorem history_wallet_can_decrease :
    OD.history ⟨0, 1, [⟨0, 1, -2, 5⟩, ⟨0, 1, -1, -3⟩]⟩ = [(-2, 1, 5), (-1, 2, 2)]
    ∧ ¬ List.Chain' (fun a b : Int × Int × ℚ => a.2.2 ≤ b.2.2)
        (OD.history ⟨0, 1, [⟨0, 1, -2, 5⟩, ⟨0, 1, -1, -3⟩]⟩) := by
  have h : OD.history ⟨0, 1, [⟨0, 1, -2, 5⟩, ⟨0, 1, -1, -3⟩]⟩ = [(-2, 1, 5), (-1, 2, 2)] := by
    norm_num [OD.history, List.insertionSort, List.orderedInsert, byDay, historyFrom]
  refine ⟨h, ?_⟩
  rw [h]
  intro hch
  have := List.chain'_cons.mp hch
  norm_num at this

/-- Claim C2: the worked scenario. With the Paris–Lyon–Marseille itinerary,
the four pre-loaded Paris→Lyon passengers, the pricing
`{10:0, 20:2, 30:5, 40:5, 50:5}` and the 8-day demand matrix of the source,
`history()` returns exactly `[(-30,1,20), (-25,2,50), (-20,4,130)]` and
`forecast` yields exactly the eight claimed triplets. -/
theorem worked_scenario :
    odC2.passengers = [⟨0, 1, -30, 20⟩, ⟨0, 1, -25, 30⟩, ⟨0, 1, -20, 40⟩, ⟨0, 1, -20, 40⟩]
    ∧ odC2.history = [(-30, 1, 20), (-25, 2, 50), (-20, 4, 130)]
    ∧ (odC2.forecast pricingC2 dmC2).map Prod.fst =
        some [(-7, 5, 150), (-6, 6, 170), (-5, 9, 260), (-4, 12, 360),
              (-3, 15, 480), (-2, 18, 620), (-1, 21, 770), (0, 21, 770)] := by
  have hod : odC2 = ⟨0, 1,
      [⟨0, 1, -30, 20⟩, ⟨0, 1, -25, 30⟩, ⟨0, 1, -20, 40⟩, ⟨0, 1, -20, 40⟩]⟩ := by
    norm_num [odC2, svcC2, itinC2, manifestC2, Service.empty, Service.load_itinerary,
      loadGo, dictInsert, Service.load_passenger_manifest, appendPassenger, dictLookup]
  refine ⟨by rw [hod], ?_, ?_⟩
  · rw [hod]
    norm_num [OD.history, List.insertionSort, List.orderedInsert, byDay, historyFrom]
  · rw [hod]
    norm_num [OD.forecast, forecastAux, runDay, ilookup, pricingC2, dmC2]

theorem dictInsert_fresh {α : Type} : ∀ (m : List ((Station × Station) × α))
    (k : Station × Station) (v : α), k ∉ m.map Prod.fst →
    dictInsert m k v = m ++ [(k, v)] := by
  intro m
  induction m with
  | nil => intro k v _; rfl
  | cons kv rest ih =>
    intro k v h
    rw [dictInsert, if_neg, List.cons_append, ih k v]
    · intro hm
      exact h (by simp [hm])
    · intro he
      exact h (by simp [he])

theorem foldl_insert_ods : ∀ (seen : List Station) (st : Station)
    (m : List ((Station × Station) × OD)),
    seen.Nodup → (∀ kv ∈ m, kv.1.2 = st → kv.1.1 ∉ seen) →
    seen.foldl (fun m prev => dictInsert m (prev, st) ⟨prev, st, []⟩) m
      = m ++ seen.map (fun prev => ((prev, st), (⟨prev, st, []⟩ : OD))) := by
  intro seen
  induction seen with
  | nil => intro st m _ _; simp
  | cons a seen' ih =>
    intro st m hnd hinv
    have hfresh : (a, st) ∉ m.map Prod.fst := by
      intro hmem
      obtain ⟨kv, hkv, hkey⟩ := List.mem_map.mp hmem
      exact hinv kv hkv (by rw [hkey]) (by rw [hkey]; exact List.mem_cons_self _ _)
    have hinv' : ∀ kv ∈ m ++ [((a, st), (⟨a, st, []⟩ : OD))], kv.1.2 = st →
        kv.1.1 ∉ seen' := by
      intro kv hkv h2
      rcases List.mem_append.mp hkv with hold | hnew
      · intro hmem
        exact hinv kv hold h2 (List.mem_cons_of_mem _ hmem)
      · have heq : kv = ((a, st), (⟨a, st, []⟩ : OD)) := by simpa using hnew
        rw [heq]
        exact (List.nodup_cons.mp hnd).1
    have hrec := ih st (m ++ [((a, st), (⟨a, st, []⟩ : OD))])
      (List.nodup_cons.mp hnd).2 hinv'
    rw [List.foldl_cons, dictInsert_fresh m (a, st) _ hfresh, hrec]
    simp

theorem loadGo_ods : ∀ (rest seen : List Station) (s : Service),
    (seen ++ rest).Nodup →
    (∀ kv ∈ s.ods, kv.1.2 ∈ seen) →
    (loadGo s seen rest).ods
      = s.ods ++ (pairKeys seen rest).map (fun k => (k, (⟨k.1, k.2, []⟩ : OD))) := by
  intro rest
  induction rest with
  | nil => intro seen s _ _; simp [loadGo, pairKeys]
  | cons st rest' ih =>
    intro seen s hnd hinv
    cases seen with
    | nil =>
      rw [loadGo]
      have := ih [st] s (by simpa using hnd)
        (fun kv hkv => absurd (hinv kv hkv) (List.not_mem_nil _))
      rw [this]
      simp [pairKeys]
    | cons a seen₀ =>
      rw [loadGo]
      have hst_not : st ∉ a :: seen₀ := by
        have := hnd
        rw [List.nodup_append] at this
        intro hmem
        exact this.2.2 hmem (by simp)
      have hseen_nd : (a :: seen₀).Nodup := (List.nodup_append.mp hnd).1
      have hfold := foldl_insert_ods (a :: seen₀) st s.ods hseen_nd
        (fun kv hkv h2 hmem => hst_not (h2 ▸ hinv kv hkv))
      have hrec := ih ((a :: seen₀) ++ [st])
        { legs := s.legs ++ [⟨(a :: seen₀).getLastD st, st⟩],
          ods := s.ods ++ (a :: seen₀).map
            (fun prev => ((prev, st), (⟨prev, st, []⟩ : OD))) }
        (by
          rw [List.append_assoc]
          simpa using hnd)
        (by
          intro kv hkv
          rcases List.mem_append.mp hkv with hold | hnew
          · exact List.mem_append_left _ (hinv kv hold)
          · obtain ⟨prev, _, rfl⟩ := List.mem_map.mp hnew
            simp)
      simp only [hfold] at hrec ⊢
      rw [hrec]
      simp [pairKeys]

theorem loadGo_legs : ∀ (rest seen : List Station) (s : Service),
    (loadGo s seen rest).legs = s.legs ++ legsOf seen rest := by
  intro rest
  induction rest with
  | nil => intro seen s; simp [loadGo, legsOf]
  | cons st rest' ih =>
    intro seen s
    cases seen with
    | nil =>
      rw [loadGo, legsOf]
      exact ih [st] s
    | cons a seen₀ =>
      rw [loadGo, legsOf]
      rw [ih ((a :: seen₀) ++ [st])]
      simp

theorem legsOf_shift : ∀ (rest seen : List Station) (a : Station),
    legsOf (seen ++ [a]) rest = consecPairs (a :: rest) := by
  intro rest
  induction rest with
  | nil =>
    intro seen a
    cases seen <;> rfl
  | cons st rest' ih =>
    intro seen a
    have hlast : (seen ++ [a]).getLastD st = a := List.getLastD_concat _ _ _
    cases seen with
    | nil =>
      rw [show ([] : List Station) ++ [a] = [a] from rfl, legsOf]
      rw [show consecPairs (a :: st :: rest') = ⟨a, st⟩ :: consecPairs (st :: rest') from rfl]
      rw [show ([a].getLastD st) = a from rfl]
      exact congrArg _ (ih [a] st)
    | cons b seen₀ =>
      rw [List.cons_append, legsOf]
      rw [show consecPairs (a :: st :: rest') = ⟨a, st⟩ :: consecPairs (st :: rest') from rfl]
      rw [show (b :: (seen₀ ++ [a])).getLastD st = a from hlast]
      have := ih (b :: (seen₀ ++ [a])) st
      rw [show (b :: (seen₀ ++ [a])) ++ [st] = b :: (seen₀ ++ [a] ++ [st]) from rfl] at this ⊢
      exact congrArg _ this

theorem consecPairs_length : ∀ (l : List Station),
    (consecPairs l).length = l.length - 1 := by
  intro l
  induction l with
  | nil => rfl
  | cons a t ih =>
    cases t with
    | nil => rfl
    | cons b t' =>
      rw [show consecPairs (a :: b :: t') = ⟨a, b⟩ :: consecPairs (b :: t') from rfl]
      simp only [List.length_cons] at ih ⊢
      omega

theorem pairKeys_length : ∀ (rest seen : List Station),
    (pairKeys seen rest).length
      = rest.length * seen.length + rest.length * (rest.length - 1) / 2 := by
  intro rest
  induction rest with
  | nil => intro seen; simp [pairKeys]
  | cons st rest' ih =>
    intro seen
    rw [pairKeys, List.length_append, List.length_map, ih (seen ++ [st])]
    simp only [List.length_append, List.length_cons, List.length_singleton]
    have h1 : (rest'.length + 1) * (rest'.length + 1 - 1)
        = rest'.length * (rest'.length - 1) + rest'.length * 2 := by
      cases hn : rest'.length with
      | zero => rfl
      | succ m =>
        simp only [Nat.add_sub_cancel, Nat.succ_sub_one]
        ring
    rw [h1, Nat.add_mul_div_right _ _ (by omega : 0 < 2)]
    simp only [List.length_nil, Nat.zero_add, Nat.mul_one, Nat.succ_mul, Nat.mul_succ]
    generalize rest'.length * (rest'.length - 1) / 2 = d
    generalize rest'.length * seen.length = m
    omega

theorem pairKeys_mem : ∀ (rest seen : List Station) (x y : Station),
    (x, y) ∈ pairKeys seen rest
      ↔ ∃ l₁ l₂, rest = l₁ ++ y :: l₂ ∧ x ∈ seen ++ l₁ := by
  intro rest
  induction rest with
  | nil =>
    intro seen x y
    simp only [pairKeys, List.not_mem_nil, false_iff]
    rintro ⟨l₁, l₂, h, _⟩
    exact List.not_mem_nil (y) (h ▸ List.mem_append_right l₁ (List.mem_cons_self y l₂))
  | cons st rest' ih =>
    intro seen x y
    rw [pairKeys, List.mem_append, ih (seen ++ [st])]
    constructor
    · rintro (hmap | ⟨l₁, l₂, hsplit, hx⟩)
      · obtain ⟨prev, hprev, heq⟩ := List.mem_map.mp hmap
        have h1 : prev = x := congrArg Prod.fst heq
        have h2 : st = y := congrArg Prod.snd heq
        subst h1
        subst h2
        exact ⟨[], rest', by simp, by simpa using hprev⟩
      · refine ⟨st :: l₁, l₂, by rw [hsplit]; rfl, ?_⟩
        rw [List.append_assoc] at hx
        simpa using hx
    · rintro ⟨l₁, l₂, hsplit, hx⟩
      cases l₁ with
      | nil =>
        simp only [List.nil_append, List.cons.injEq] at hsplit
        obtain ⟨rfl, rfl⟩ := hsplit
        left
        rw [List.append_nil] at hx
        exact List.mem_map.mpr ⟨x, hx, rfl⟩
      | cons h₀ l₁' =>
        simp only [List.cons_append, List.cons.injEq] at hsplit
        obtain ⟨rfl, hsplit'⟩ := hsplit
        right
        refine ⟨l₁', l₂, hsplit', ?_⟩
        rw [List.append_assoc]
        simpa using hx

theorem load_itinerary_ods_eq (itinerary : List Station) (h : itinerary.Nodup) :
    (Service.empty.load_itinerary itinerary).ods
      = (pairKeys [] itinerary).map (fun k => (k, (⟨k.1, k.2, []⟩ : OD))) := by
  rw [Service.load_itinerary, loadGo_ods itinerary [] Service.empty (by simpa using h)
    (by intro kv hkv; simp [Service.empty] at hkv)]
  rfl

theorem load_itinerary_keys (itinerary : List Station) (h : itinerary.Nodup) :
    (Service.empty.load_itinerary itinerary).ods.map Prod.fst = pairKeys [] itinerary := by
  rw [load_itinerary_ods_eq itinerary h, List.map_map]
  conv_rhs => rw [← List.map_id (pairKeys [] itinerary)]
  apply List.map_congr_left
  intro k _
  rfl

theorem load_itinerary_legs_eq (itinerary : List Station) :
    (Service.empty.load_itinerary itinerary).legs = consecPairs itinerary := by
  cases itinerary with
  | nil => rfl
  | cons a rest =>
    rw [Service.load_itinerary, loadGo_legs]
    rw [show legsOf [] (a :: rest) = legsOf [a] rest from rfl]
    rw [show legsOf [a] rest = legsOf ([] ++ [a]) rest from rfl, legsOf_shift]
    rfl

/-- Claim C5: for every itinerary of N pairwise-distinct stations loaded
into a fresh service, `load_itinerary` creates the N−1 consecutive-pair legs
in itinerary order and exactly N·(N−1)/2 ODs — one keyed
`(itinerary[i], itinerary[j])` for every i < j, never in reverse direction —
and an itinerary of at most one station yields no legs and no ODs without
error. -/
theorem load_itinerary_shape : ∀ (itinerary : List Station), itinerary.Nodup →
    (Service.empty.load_itinerary itinerary).legs = consecPairs itinerary
    ∧ (2 ≤ itinerary.length →
        (Service.empty.load_itinerary itinerary).legs.length = itinerary.length - 1)
    ∧ (Service.empty.load_itinerary itinerary).ods.length
        = itinerary.length * (itinerary.length - 1) / 2
    ∧ (∀ i j (hij : i < j) (hj : j < itinerary.length),
        (itinerary.get ⟨i, lt_trans hij hj⟩, itinerary.get ⟨j, hj⟩)
          ∈ (Service.empty.load_itinerary itinerary).ods.map Prod.fst)
    ∧ (∀ k ∈ (Service.empty.load_itinerary itinerary).ods.map Prod.fst,
        ∃ i j, ∃ (hij : i < j) (hj : j < itinerary.length),
          k = (itinerary.get ⟨i, lt_trans hij hj⟩, itinerary.get ⟨j, hj⟩))
    ∧ (∀ i j (hij : i < j) (hj : j < itinerary.length),
        (itinerary.get ⟨j, hj⟩, itinerary.get ⟨i, lt_trans hij hj⟩)
          ∉ (Service.empty.load_itinerary itinerary).ods.map Prod.fst)
    ∧ (itinerary.length ≤ 1 →
        (Service.empty.load_itinerary itinerary).legs = []
        ∧ (Service.empty.load_itinerary itinerary).ods = []) := by
  intro itin hnd
  have hkeys := load_itinerary_keys itin hnd
  have hfwd : ∀ i j (hij : i < j) (hj : j < itin.length),
      (itin.get ⟨i, lt_trans hij hj⟩, itin.get ⟨j, hj⟩)
        ∈ (Service.empty.load_itinerary itin).ods.map Prod.fst := by
    intro i j hij hj
    rw [hkeys]
    apply (pairKeys_mem itin [] _ _).mpr
    have hi' : i < (itin.take j).length := by
      rw [List.length_take]
      omega
    refine ⟨itin.take j, itin.drop (j + 1), ?_, ?_⟩
    · conv_lhs => rw [← List.take_append_drop j itin, List.drop_eq_getElem_cons hj]
      rw [List.get_eq_getElem]
    · rw [List.nil_append, List.get_eq_getElem,
        show itin[i] = (itin.take j)[i] from (List.getElem_take itin).symm]
      exact List.getElem_mem hi'
  have hbwd : ∀ k ∈ (Service.empty.load_itinerary itin).ods.map Prod.fst,
      ∃ i j, ∃ (hij : i < j) (hj : j < itin.length),
        k = (itin.get ⟨i, lt_trans hij hj⟩, itin.get ⟨j, hj⟩) := by
    intro k hk
    obtain ⟨x, y⟩ := k
    rw [hkeys] at hk
    obtain ⟨l₁, l₂, hsplit, hx⟩ := (pairKeys_mem itin [] x y).mp hk
    rw [List.nil_append] at hx
    obtain ⟨i, hi, hxi⟩ := List.getElem_of_mem hx
    subst hsplit
    have hj : l₁.length < (l₁ ++ y :: l₂).length := by
      rw [List.length_append, List.length_cons]
      omega
    have hij : i < l₁.length := hi
    refine ⟨i, l₁.length, hij, hj, ?_⟩
    have hyv : (l₁ ++ y :: l₂).get ⟨l₁.length, hj⟩ = y := by
      rw [List.get_eq_getElem, List.getElem_append_right (le_refl l₁.length)]
      simp
    have hxv : (l₁ ++ y :: l₂).get ⟨i, lt_trans hij hj⟩ = x := by
      rw [List.get_eq_getElem, List.getElem_append_left hi]
      exact hxi
    rw [hyv, hxv]
  refine ⟨load_itinerary_legs_eq itin, ?_, ?_, hfwd, hbwd, ?_, ?_⟩
  · intro _
    rw [load_itinerary_legs_eq itin, consecPairs_length]
  · rw [load_itinerary_ods_eq itin hnd, List.length_map, pairKeys_length]
    simp
  · intro i j hij hj hmem
    obtain ⟨i', j', hij', hj', heq⟩ := hbwd _ hmem
    have h1 : itin.get ⟨j, hj⟩ = itin.get ⟨i', lt_trans hij' hj'⟩ :=
      congrArg Prod.fst heq
    have h2 : itin.get ⟨i, lt_trans hij hj⟩ = itin.get ⟨j', hj'⟩ :=
      congrArg Prod.snd heq
    rw [List.get_eq_getElem, List.get_eq_getElem] at h1 h2
    have e1 : j = i' := (hnd.getElem_inj_iff).mp h1
    have e2 : i = j' := (hnd.getElem_inj_iff).mp h2
    omega
  · intro hlen
    cases itin with
    | nil => exact ⟨rfl, rfl⟩
    | cons a rest =>
      cases rest with
      | nil => exact ⟨rfl, rfl⟩
      | cons b rest' => simp at hlen

theorem forecast_follows_spec_witness :
    (([(10, 1), (20, 3)] : List (Int × Int)).map Prod.fst).Pairwise (· < ·)
    ∧ (dmW.map Prod.fst).Pairwise (· < ·)
    ∧ (∀ dd ∈ dmW, ∀ k ∈ ([(10, 1), (20, 3)] : List (Int × Int)).map Prod.fst,
        (ilookup dd.2 k).isSome = true)
    ∧ OD.forecast ⟨0, 1, []⟩ [(10, 1), (20, 3)] dmW
        = some (forecastSpecOf ⟨0, 1, []⟩ [(10, 1), (20, 3)] dmW) :=
  ⟨by decide, by decide, by decide,
    forecast_follows_spec ⟨0, 1, []⟩ [(10, 1), (20, 3)] dmW (by decide) (by decide)
      (by decide)⟩

theorem load_itinerary_shape_witness :
    ([0, 1, 2, 3] : List Station).Nodup
    ∧ (Service.empty.load_itinerary [0, 1, 2, 3]).legs.length = 3
    ∧ (Service.empty.load_itinerary [0, 1, 2, 3]).ods.length = 6 := by
  refine ⟨by decide, ?_, ?_⟩
  · have h := (load_itinerary_shape [0, 1, 2, 3] (by decide)).2.1 (by decide)
    simpa using h
  · have h := (load_itinerary_shape [0, 1, 2, 3] (by decide)).2.2.1
    simpa using h

theorem forecast_frame_witness :
    (∀ dd ∈ dmW, ∀ k ∈ ([(10, 1), (20, 3)] : List (Int × Int)).map Prod.fst,
        (ilookup dd.2 k).isSome = true)
    ∧ ∃ out pfin,
        OD.forecast ⟨0, 1, []⟩ [(10, 1), (20, 3)] dmW = some (out, pfin)
        ∧ out.length = dmW.length
        ∧ out.map Prod.fst = dmW.map Prod.fst
        ∧ PLe pfin [(10, 1), (20, 3)]
        ∧ sumVals [(10, 1), (20, 3)] - sumVals pfin
            = (out.getLastD (0, ((⟨0, 1, []⟩ : OD).passengers.length : Int), 0)).2.1
              - ((⟨0, 1, []⟩ : OD).passengers.length : Int) :=
  ⟨by decide, forecast_frame ⟨0, 1, []⟩ [(10, 1), (20, 3)] dmW (by decide)⟩

theorem forecast_second_run_witness :
    (∀ dd ∈ dmW, ∀ k ∈ ([(10, 1), (20, 3)] : List (Int × Int)).map Prod.fst,
        (ilookup dd.2 k).isSome = true)
    ∧ OD.forecast ⟨0, 1, []⟩ [(10, 1), (20, 3)] dmW
        = some ([(-1, 2, 30), (0, 4, 70)], [(10, 0), (20, 0)])
    ∧ OD.forecast ⟨0, 1, []⟩ [(10, 0), (20, 0)] dmW
        = some ([(-1, 0, 0), (0, 0, 0)], [(10, 0), (20, 0)])
    ∧ List.Forall₂ (· ≤ ·)
        (increments (((⟨0, 1, []⟩ : OD).passengers.length : Int)) [(-1, 0, 0), (0, 0, 0)])
        (increments (((⟨0, 1, []⟩ : OD).passengers.length : Int)) [(-1, 2, 30), (0, 4, 70)]) := by
  have hf1 : OD.forecast ⟨0, 1, []⟩ [(10, 1), (20, 3)] dmW
      = some ([(-1, 2, 30), (0, 4, 70)], [(10, 0), (20, 0)]) := by
    norm_num [OD.forecast, forecastAux, runDay, ilookup, dmW]
  have hf2 : OD.forecast ⟨0, 1, []⟩ [(10, 0), (20, 0)] dmW
      = some ([(-1, 0, 0), (0, 0, 0)], [(10, 0), (20, 0)]) := by
    norm_num [OD.forecast, forecastAux, runDay, ilookup, dmW]
  exact ⟨by decide, hf1, hf2,
    forecast_second_run_sells_no_more ⟨0, 1, []⟩ [(10, 1), (20, 3)] dmW _ _ _ _
      (by decide) hf1 hf2⟩

theorem forecast_never_negative_witness :
    (∀ kv ∈ ([(10, 1), (20, 3)] : List (Int × Int)), 0 ≤ kv.2)
    ∧ OD.forecast ⟨0, 1, []⟩ [(10, 1), (20, 3)] dmW
        = some ([(-1, 2, 30), (0, 4, 70)], [(10, 0), (20, 0)])
    ∧ (∀ kv ∈ ([(10, 0), (20, 0)] : List (Int × Int)), 0 ≤ kv.2) := by
  have hf1 : OD.forecast ⟨0, 1, []⟩ [(10, 1), (20, 3)] dmW
      = some ([(-1, 2, 30), (0, 4, 70)], [(10, 0), (20, 0)]) := by
    norm_num [OD.forecast, forecastAux, runDay, ilookup, dmW]
  exact ⟨by decide, hf1,
    forecast_never_negative ⟨0, 1, []⟩ [(10, 1), (20, 3)] dmW _ _ (by decide) hf1⟩
